import Mathlib

set_option maxHeartbeats 1600000
set_option linter.unusedSectionVars false

/- Formal model of the data-extraction-to-statistical-grouping pipeline of
src/app.py: the Tukey-style letter assigner assign_groups (app.py:22-42),
the RTF row extractor parse_rtf_content (app.py:47-58), the byte-tolerant
decoding and text normalization of the RTF branch (app.py:149-152 together
with the normalizer described in the specification), and the
per-(trial, parameter) orchestration loop of main (app.py:81-126). -/

section Assigner

variable {α : Type} [DecidableEq α]

/-- Neighbour lookup.  The edge list plays the role of grouping_dict in
src/app.py (the symmetric adjacency built at app.py:106-111); adjOf edges t
returns grouping_dict[t], the defaultdict lookup used at app.py:34 (a missing
key yields the empty set, here the empty list). -/
def adjOf (edges : List (α × α)) (t : α) : List α :=
  (edges.filter (fun e => decide (e.1 = t))).map Prod.snd

/-- Sequential insertion of still-unseen neighbours, mirroring the inner
for-loop of assign_groups (app.py:34-37): a neighbour not yet in group is
added to both group and to_check.  newsOf ns g is the list of members that
the loop body adds when the pending neighbour list is ns and the component
set so far is g. -/
def newsOf : List α → List α → List α
  | [], _ => []
  | n :: ns, g => if n ∈ g then newsOf ns g else n :: newsOf ns (g ++ [n])

theorem newsOf_mem : ∀ (ns g : List α) (x : α), x ∈ newsOf ns g → x ∈ ns ∧ x ∉ g := by
  intro ns
  induction ns with
  | nil => intro g x hx; simp [newsOf] at hx
  | cons n ns ih =>
    intro g x hx
    by_cases hn : n ∈ g
    · rw [newsOf, if_pos hn] at hx
      have h := ih g x hx
      exact ⟨List.mem_cons_of_mem _ h.1, h.2⟩
    · rw [newsOf, if_neg hn] at hx
      rcases List.mem_cons.1 hx with rfl | hx2
      · exact ⟨List.mem_cons_self _ _, hn⟩
      · have h := ih (g ++ [n]) x hx2
        refine ⟨List.mem_cons_of_mem _ h.1, fun hxg => h.2 ?_⟩
        exact List.mem_append_left _ hxg

theorem newsOf_nodup : ∀ (ns g : List α), (newsOf ns g).Nodup := by
  intro ns
  induction ns with
  | nil => intro g; simp [newsOf]
  | cons n ns ih =>
    intro g
    by_cases hn : n ∈ g
    · rw [newsOf, if_pos hn]; exact ih g
    · rw [newsOf, if_neg hn]
      refine List.nodup_cons.2 ⟨fun hmem => ?_, ih (g ++ [n])⟩
      have h := newsOf_mem ns (g ++ [n]) n hmem
      exact h.2 (List.mem_append_right _ (List.mem_singleton.2 rfl))

theorem newsOf_cover : ∀ (ns g : List α) (x : α), x ∈ ns → x ∈ g ++ newsOf ns g := by
  intro ns
  induction ns with
  | nil => intro g x hx; simp at hx
  | cons n ns ih =>
    intro g x hx
    by_cases hn : n ∈ g
    · rw [newsOf, if_pos hn]
      rcases List.mem_cons.1 hx with rfl | hx2
      · exact List.mem_append_left _ hn
      · exact ih g x hx2
    · rw [newsOf, if_neg hn]
      rcases List.mem_cons.1 hx with rfl | hx2
      · exact List.mem_append_right _ (List.mem_cons_self _ _)
      · have h := ih (g ++ [n]) x hx2
        rcases List.mem_append.1 h with hg | hnews
        · rcases List.mem_append.1 hg with hg2 | hx1
          · exact List.mem_append_left _ hg2
          · exact List.mem_append_right _ (List.mem_cons.2 (Or.inl (List.mem_singleton.1 hx1)))
        · exact List.mem_append_right _ (List.mem_cons_of_mem _ hnews)

theorem adjOf_subset_targets (edges : List (α × α)) (t x : α)
    (hx : x ∈ adjOf edges t) : x ∈ edges.map Prod.snd := by
  rcases List.mem_map.1 hx with ⟨e, he, rfl⟩
  exact List.mem_map.2 ⟨e, List.mem_of_mem_filter he, rfl⟩

/-- Worklist traversal of the while-loop in assign_groups (app.py:32-37):
pop an item from to_check, add its not-yet-seen neighbours to both the
component and the worklist.  Python pops an arbitrary set element; the list
head is popped here, which computes the same reachable set.  Termination is
by the measure named in the specification: the worklist length plus (twice)
the count of adjacency targets not yet collected into the component. -/
def componentLoop (edges : List (α × α)) (g : List α) (tc : List α) : List α :=
  match tc with
  | [] => g
  | item :: rest =>
    componentLoop edges (g ++ newsOf (adjOf edges item) g)
      (rest ++ newsOf (adjOf edges item) g)
termination_by tc.length + 2 * ((edges.map Prod.snd).toFinset \ g.toFinset).card
decreasing_by
  have hsub : (newsOf (adjOf edges item) g).toFinset ⊆
      (edges.map Prod.snd).toFinset \ g.toFinset := by
    intro x hx
    rw [List.mem_toFinset] at hx
    have h := newsOf_mem (adjOf edges item) g x hx
    rw [Finset.mem_sdiff, List.mem_toFinset, List.mem_toFinset]
    exact ⟨adjOf_subset_targets edges item x h.1, h.2⟩
  have hcard : ((edges.map Prod.snd).toFinset \ (g ++ newsOf (adjOf edges item) g).toFinset).card
      = ((edges.map Prod.snd).toFinset \ g.toFinset).card
        - (newsOf (adjOf edges item) g).length := by
    rw [List.toFinset_append, ← Finset.sup_eq_union, ← sdiff_sdiff, Finset.card_sdiff hsub,
      List.toFinset_card_of_nodup (newsOf_nodup _ _)]
  have hle : (newsOf (adjOf edges item) g).length ≤
      ((edges.map Prod.snd).toFinset \ g.toFinset).card := by
    rw [← List.toFinset_card_of_nodup (newsOf_nodup (adjOf edges item) g)]
    exact Finset.card_le_card hsub
  simp only [List.length_append, List.length_cons]
  omega

/-- The component of t: group and to_check both start as the singleton t
(app.py:30-31). -/
def componentFrom (edges : List (α × α)) (t : α) : List α :=
  componentLoop edges [t] [t]

/-- One directed step of the adjacency list. -/
def EdgeStep (edges : List (α × α)) (a b : α) : Prop := (a, b) ∈ edges

/-- Reachability along not-significantly-different edges: two treatments are
related exactly when they lie in the same connected component once the edge
list is symmetric. -/
def Reaches (edges : List (α × α)) (a b : α) : Prop :=
  Relation.ReflTransGen (EdgeStep edges) a b

/-- Symmetry of the adjacency list, as produced at app.py:109-111 where every
non-rejected pair is inserted in both directions. -/
def SymEdges (edges : List (α × α)) : Prop := ∀ p ∈ edges, (p.2, p.1) ∈ edges

theorem mem_adjOf (edges : List (α × α)) (t x : α) :
    x ∈ adjOf edges t ↔ (t, x) ∈ edges := by
  constructor
  · intro hx
    rcases List.mem_map.1 hx with ⟨e, he, rfl⟩
    obtain ⟨a, b⟩ := e
    obtain ⟨hmem, hpred⟩ := List.mem_filter.1 he
    have h1 : a = t := of_decide_eq_true hpred
    subst h1
    exact hmem
  · intro h
    exact List.mem_map.2 ⟨(t, x), List.mem_filter.2 ⟨h, by simp⟩, rfl⟩

theorem reaches_symm (edges : List (α × α)) (hsym : SymEdges edges) {a b : α}
    (h : Reaches edges a b) : Reaches edges b a := by
  induction h with
  | refl => exact Relation.ReflTransGen.refl
  | tail _ h2 ih =>
    exact Relation.ReflTransGen.trans
      (Relation.ReflTransGen.single (show EdgeStep edges _ _ from hsym _ h2)) ih

theorem componentLoop_mono (edges : List (α × α)) :
    ∀ (g tc : List α), ∀ x ∈ g, x ∈ componentLoop edges g tc := by
  intro g tc
  induction g, tc using componentLoop.induct edges with
  | case1 g => intro x hx; rw [componentLoop]; exact hx
  | case2 g item rest ih =>
    intro x hx
    rw [componentLoop]
    exact ih x (List.mem_append_left _ hx)

theorem componentLoop_sound (edges : List (α × α)) (t : α) :
    ∀ (g tc : List α), (∀ x ∈ g, Reaches edges t x) → (∀ x ∈ tc, Reaches edges t x) →
    ∀ x ∈ componentLoop edges g tc, Reaches edges t x := by
  intro g tc
  induction g, tc using componentLoop.induct edges with
  | case1 g => intro hg _ x hx; rw [componentLoop] at hx; exact hg x hx
  | case2 g item rest ih =>
    intro hg htc x hx
    rw [componentLoop] at hx
    have hnews : ∀ y ∈ newsOf (adjOf edges item) g, Reaches edges t y := by
      intro y hy
      have hmem := (newsOf_mem _ _ y hy).1
      have hstep : EdgeStep edges item y := (mem_adjOf edges item y).1 hmem
      exact Relation.ReflTransGen.tail (htc item (List.mem_cons_self _ _)) hstep
    refine ih ?_ ?_ x hx
    · intro y hy
      rcases List.mem_append.1 hy with h | h
      · exact hg y h
      · exact hnews y h
    · intro y hy
      rcases List.mem_append.1 hy with h | h
      · exact htc y (List.mem_cons_of_mem _ h)
      · exact hnews y h

theorem componentLoop_closed (edges : List (α × α)) :
    ∀ (g tc : List α),
    (∀ x ∈ g, x ∈ tc ∨ ∀ n ∈ adjOf edges x, n ∈ g) →
    ∀ x ∈ componentLoop edges g tc, ∀ n ∈ adjOf edges x, n ∈ componentLoop edges g tc := by
  intro g tc
  induction g, tc using componentLoop.induct edges with
  | case1 g =>
    intro hcl x hx n hn
    rw [componentLoop] at hx ⊢
    rcases hcl x hx with h | h
    · exact absurd h (List.not_mem_nil x)
    · exact h n hn
  | case2 g item rest ih =>
    intro hcl x hx n hn
    rw [componentLoop] at hx ⊢
    refine ih ?_ x hx n hn
    intro y hy
    rcases List.mem_append.1 hy with hyg | hynews
    · rcases hcl y hyg with hytc | hycl
      · rcases List.mem_cons.1 hytc with rfl | hyrest
        · right
          intro m hm
          exact newsOf_cover (adjOf edges y) g m hm
        · left; exact List.mem_append_left _ hyrest
      · right; intro m hm; exact List.mem_append_left _ (hycl m hm)
    · left; exact List.mem_append_right _ hynews

theorem componentLoop_nodup (edges : List (α × α)) :
    ∀ (g tc : List α), g.Nodup → (componentLoop edges g tc).Nodup := by
  intro g tc
  induction g, tc using componentLoop.induct edges with
  | case1 g => intro h; rw [componentLoop]; exact h
  | case2 g item rest ih =>
    intro h
    rw [componentLoop]
    apply ih
    refine List.Nodup.append h (newsOf_nodup _ _) ?_
    intro a hag hanews
    exact (newsOf_mem _ _ a hanews).2 hag

theorem componentLoop_subset (edges : List (α × α)) :
    ∀ (g tc : List α), ∀ x ∈ componentLoop edges g tc, x ∈ g ∨ x ∈ edges.map Prod.snd := by
  intro g tc
  induction g, tc using componentLoop.induct edges with
  | case1 g => intro x hx; rw [componentLoop] at hx; exact Or.inl hx
  | case2 g item rest ih =>
    intro x hx
    rw [componentLoop] at hx
    rcases ih x hx with h | h
    · rcases List.mem_append.1 h with h2 | h2
      · exact Or.inl h2
      · exact Or.inr (adjOf_subset_targets edges item x (newsOf_mem _ _ x h2).1)
    · exact Or.inr h

/-- The worklist traversal of assign_groups computes exactly the set of
treatments reachable from t along adjacency edges: the connected component
of t. -/
theorem componentFrom_spec (edges : List (α × α)) (t x : α) :
    x ∈ componentFrom edges t ↔ Reaches edges t x := by
  constructor
  · intro hx
    refine componentLoop_sound edges t [t] [t] ?_ ?_ x hx
    · intro y hy
      rw [List.mem_singleton] at hy
      subst hy
      exact Relation.ReflTransGen.refl
    · intro y hy
      rw [List.mem_singleton] at hy
      subst hy
      exact Relation.ReflTransGen.refl
  · intro h
    induction h with
    | refl => exact componentLoop_mono edges [t] [t] t (List.mem_singleton.2 rfl)
    | tail _ h2 ih =>
      refine componentLoop_closed edges [t] [t] ?_ _ ih _ ((mem_adjOf edges _ _).2 h2)
      intro y hy
      exact Or.inl hy

theorem self_mem_componentFrom (edges : List (α × α)) (t : α) :
    t ∈ componentFrom edges t :=
  componentLoop_mono edges [t] [t] t (List.mem_singleton.2 rfl)

theorem componentFrom_nodup (edges : List (α × α)) (t : α) :
    (componentFrom edges t).Nodup :=
  componentLoop_nodup edges [t] [t] (List.nodup_singleton t)

theorem componentFrom_length_le (edges : List (α × α)) (t : α) :
    (componentFrom edges t).length ≤ edges.length + 1 := by
  have hnd := componentFrom_nodup edges t
  have hsub : (componentFrom edges t).toFinset ⊆ (t :: edges.map Prod.snd).toFinset := by
    intro x hx
    rw [List.mem_toFinset] at hx
    rw [List.mem_toFinset, List.mem_cons]
    rcases componentLoop_subset edges [t] [t] x hx with h | h
    · exact Or.inl (List.mem_singleton.1 h)
    · exact Or.inr h
  calc (componentFrom edges t).length
      = (componentFrom edges t).toFinset.card := (List.toFinset_card_of_nodup hnd).symm
    _ ≤ (t :: edges.map Prod.snd).toFinset.card := Finset.card_le_card hsub
    _ ≤ (t :: edges.map Prod.snd).length := List.toFinset_card_le _
    _ = edges.length + 1 := by simp

/-- State of the outer for-loop of assign_groups (app.py:24-26): the groups
dict (a finite map, modelled as a function to Option), the assigned set, and
current_letter.  The letter is modelled as the count of letters consumed so
far: 0 stands for A, and app.py:41 advances with chr(ord(letter)+1), which
never repeats a character, so distinct counts mean distinct letters. -/
structure AState (α : Type) where
  groups : α → Option Nat
  assigned : List α
  letter : Nat

/-- One iteration of the outer for-loop of assign_groups (app.py:27-41): an
already assigned treatment is skipped; otherwise every member of its
connected component receives the current letter (dict assignment at
app.py:39 overwrites, hence the unconditional if on component membership),
all members are marked assigned, and the letter advances. -/
def assignStep (edges : List (α × α)) (st : AState α) (t : α) : AState α :=
  if t ∈ st.assigned then st
  else
    { groups := fun x => if x ∈ componentFrom edges t then some st.letter else st.groups x
      assigned := st.assigned ++ componentFrom edges t
      letter := st.letter + 1 }

/-- assign_groups (app.py:22-42): fold the outer for-loop over the Treatment
column of the means table, starting from the empty dict, empty assigned set
and letter A; the result maps each treatment to its group letter. -/
def assignGroups (edges : List (α × α)) (treatments : List α) : α → Option Nat :=
  (treatments.foldl (assignStep edges) ⟨fun _ => none, [], 0⟩).groups

/-- Loop invariant of assign_groups: groups and assigned stay in sync, the
assigned set is closed under reachability and constant on components,
distinct components have distinct letters, and the letters handed out so far
are exactly 0, ..., letter-1. -/
def AssignInv (edges : List (α × α)) (st : AState α) : Prop :=
  (∀ x, (st.groups x).isSome ↔ x ∈ st.assigned) ∧
  (∀ x, x ∈ st.assigned → ∀ y, Reaches edges x y →
    y ∈ st.assigned ∧ st.groups y = st.groups x) ∧
  (∀ x y, x ∈ st.assigned → y ∈ st.assigned → ¬ Reaches edges x y →
    st.groups x ≠ st.groups y) ∧
  (∀ x, x ∈ st.assigned → ∃ l, l < st.letter ∧ st.groups x = some l) ∧
  (∀ l, l < st.letter → ∃ x, st.groups x = some l)

theorem assignInv_init (edges : List (α × α)) :
    AssignInv edges ({ groups := fun _ => none, assigned := [], letter := 0 } : AState α) := by
  refine ⟨?_, ?_, ?_, ?_, ?_⟩
  · intro x; simp
  · intro x hx; simp at hx
  · intro x y hx; simp at hx
  · intro x hx; simp at hx
  · intro l hl; simp at hl

theorem assignStep_inv (edges : List (α × α)) (hsym : SymEdges edges)
    (st : AState α) (hinv : AssignInv edges st) (t : α) :
    AssignInv edges (assignStep edges st t) ∧
    t ∈ (assignStep edges st t).assigned ∧
    (∀ x, x ∈ st.assigned →
      (assignStep edges st t).groups x = st.groups x ∧
      x ∈ (assignStep edges st t).assigned) ∧
    (t ∉ st.assigned → (assignStep edges st t).groups t = some st.letter) := by
  obtain ⟨ha, hb, hc, hd, he⟩ := hinv
  by_cases ht : t ∈ st.assigned
  · rw [assignStep, if_pos ht]
    exact ⟨⟨ha, hb, hc, hd, he⟩, ht, fun x hx => ⟨rfl, hx⟩, fun hcon => absurd ht hcon⟩
  · rw [assignStep, if_neg ht]
    dsimp only [AssignInv]
    have hcomp : ∀ x, x ∈ componentFrom edges t ↔ Reaches edges t x :=
      fun x => componentFrom_spec edges t x
    have hdisj : ∀ x, x ∈ st.assigned → x ∉ componentFrom edges t := by
      intro x hx hxc
      have hrxt := reaches_symm edges hsym ((hcomp x).1 hxc)
      exact ht (hb x hx t hrxt).1
    refine ⟨⟨?_, ?_, ?_, ?_, ?_⟩, ?_, ?_, ?_⟩
    · -- groups/assigned sync
      intro x
      simp only [List.mem_append]
      by_cases hxc : x ∈ componentFrom edges t
      · simp [hxc]
      · simp only [if_neg hxc]
        rw [ha x]
        constructor
        · exact Or.inl
        · intro h
          rcases h with h | h
          · exact h
          · exact absurd h hxc
    · -- component closure and constancy
      intro x hx y hry
      simp only [List.mem_append] at hx ⊢
      rcases hx with hxa | hxc
      · have hxnc := hdisj x hxa
        have hold := hb x hxa y hry
        have hync := hdisj y hold.1
        rw [if_neg hync, if_neg hxnc]
        exact ⟨Or.inl hold.1, hold.2⟩
      · have hrtx := (hcomp x).1 hxc
        have hrty := Relation.ReflTransGen.trans hrtx hry
        have hyc : y ∈ componentFrom edges t := (hcomp y).2 hrty
        rw [if_pos hyc, if_pos hxc]
        exact ⟨Or.inr hyc, rfl⟩
    · -- distinct letters for distinct components
      intro x y hx hy hnr
      simp only [List.mem_append] at hx hy
      rcases hx with hxa | hxc
      · rcases hy with hya | hyc
        · rw [if_neg (hdisj x hxa), if_neg (hdisj y hya)]
          exact hc x y hxa hya hnr
        · rw [if_neg (hdisj x hxa), if_pos hyc]
          obtain ⟨l, hl, hgl⟩ := hd x hxa
          rw [hgl]
          intro hcon
          have := Option.some.inj hcon
          omega
      · rcases hy with hya | hyc
        · rw [if_pos hxc, if_neg (hdisj y hya)]
          obtain ⟨l, hl, hgl⟩ := hd y hya
          rw [hgl]
          intro hcon
          have := Option.some.inj hcon
          omega
        · exfalso
          have hrtx := (hcomp x).1 hxc
          have hrty := (hcomp y).1 hyc
          exact hnr (Relation.ReflTransGen.trans (reaches_symm edges hsym hrtx) hrty)
    · -- letters stay below the counter
      intro x hx
      simp only [List.mem_append] at hx
      rcases hx with hxa | hxc
      · obtain ⟨l, hl, hgl⟩ := hd x hxa
        exact ⟨l, by omega, by rw [if_neg (hdisj x hxa)]; exact hgl⟩
      · exact ⟨st.letter, by omega, by rw [if_pos hxc]⟩
    · -- every letter below the counter is in use
      intro l hl
      by_cases hll : l = st.letter
      · subst hll
        exact ⟨t, by rw [if_pos (self_mem_componentFrom edges t)]⟩
      · have hlt : l < st.letter := by omega
        obtain ⟨x, hx⟩ := he l hlt
        have hxa : x ∈ st.assigned := (ha x).1 (by rw [hx]; rfl)
        exact ⟨x, by rw [if_neg (hdisj x hxa)]; exact hx⟩
    · -- t becomes assigned
      exact List.mem_append_right _ (self_mem_componentFrom edges t)
    · -- previously assigned treatments are untouched
      intro x hx
      exact ⟨by rw [if_neg (hdisj x hx)], List.mem_append_left _ hx⟩
    · -- the fresh treatment gets the current letter
      intro _
      rw [if_pos (self_mem_componentFrom edges t)]

theorem assignFold_inv (edges : List (α × α)) (hsym : SymEdges edges) :
    ∀ (ts : List α) (st : AState α), AssignInv edges st →
    AssignInv edges (ts.foldl (assignStep edges) st) ∧
    (∀ t ∈ ts, t ∈ (ts.foldl (assignStep edges) st).assigned) ∧
    (∀ x, x ∈ st.assigned →
      (ts.foldl (assignStep edges) st).groups x = st.groups x ∧
      x ∈ (ts.foldl (assignStep edges) st).assigned) := by
  intro ts
  induction ts with
  | nil =>
    intro st h
    exact ⟨h, by simp, fun x hx => ⟨rfl, hx⟩⟩
  | cons t ts ih =>
    intro st h
    have hstep := assignStep_inv edges hsym st h t
    have hrec := ih (assignStep edges st t) hstep.1
    rw [List.foldl_cons]
    refine ⟨hrec.1, ?_, ?_⟩
    · intro u hu
      rcases List.mem_cons.1 hu with rfl | hu2
      · exact (hrec.2.2 u hstep.2.1).2
      · exact hrec.2.1 u hu2
    · intro x hx
      have h1 := hstep.2.2.1 x hx
      have h2 := hrec.2.2 x h1.2
      exact ⟨h2.1.trans h1.1, h2.2⟩

theorem inv_letters_initial_segment (edges : List (α × α)) (st : AState α)
    (hinv : AssignInv edges st) :
    ∀ l, (∃ x, st.groups x = some l) ↔ l < st.letter := by
  intro l
  obtain ⟨ha, _, _, hd, he⟩ := hinv
  constructor
  · rintro ⟨x, hx⟩
    have hxa : x ∈ st.assigned := (ha x).1 (by rw [hx]; rfl)
    obtain ⟨l2, hl2, hg⟩ := hd x hxa
    rw [hx] at hg
    have := Option.some.inj hg
    omega
  · intro hl
    exact he l hl

/-- Claim C1: for every means table and every symmetric
not-significantly-different adjacency relation, assign_groups
(app.py:22-42) gives the same letter to any two treatments lying in the
same connected component of the adjacency relation, different letters to
treatments in different components, and assigns every treatment of the
means table exactly one letter (the groups dict is a function, so holding
exactly one letter means: defined, i.e. isSome). -/
theorem assign_groups_component_correct (edges : List (α × α)) (treatments : List α)
    (hsym : SymEdges edges) :
    (∀ u ∈ treatments, ∀ v ∈ treatments, Reaches edges u v →
      assignGroups edges treatments u = assignGroups edges treatments v) ∧
    (∀ u ∈ treatments, ∀ v ∈ treatments, ¬ Reaches edges u v →
      assignGroups edges treatments u ≠ assignGroups edges treatments v) ∧
    (∀ u ∈ treatments, (assignGroups edges treatments u).isSome) := by
  have h := assignFold_inv edges hsym treatments
    { groups := fun _ => none, assigned := [], letter := 0 } (assignInv_init edges)
  obtain ⟨⟨ha, hb, hc, hd, he⟩, hmem, _⟩ := h
  simp only [assignGroups]
  refine ⟨?_, ?_, ?_⟩
  · intro u hu v hv hr
    exact ((hb u (hmem u hu) v hr).2).symm
  · intro u hu v hv hnr
    exact hc u v (hmem u hu) (hmem v hv) hnr
  · intro u hu
    exact (ha u).2 (hmem u hu)

/-- Claim C1 witness: in a concrete table with the symmetric edge 1-2 and
isolated treatment 3, treatments 1 and 2 share a letter, 1 and 3 differ,
and 3 is assigned. -/
theorem assign_groups_component_correct_witness :
    assignGroups [((1 : Nat), (2 : Nat)), (2, 1)] [1, 2, 3] 1
      = assignGroups [((1 : Nat), (2 : Nat)), (2, 1)] [1, 2, 3] 2 ∧
    assignGroups [((1 : Nat), (2 : Nat)), (2, 1)] [1, 2, 3] 1
      ≠ assignGroups [((1 : Nat), (2 : Nat)), (2, 1)] [1, 2, 3] 3 ∧
    (assignGroups [((1 : Nat), (2 : Nat)), (2, 1)] [1, 2, 3] 3).isSome := by
  have hsym : SymEdges [((1 : Nat), (2 : Nat)), (2, 1)] := by
    intro p hp
    fin_cases hp <;> decide
  have h := assign_groups_component_correct [((1 : Nat), (2 : Nat)), (2, 1)] [1, 2, 3] hsym
  have hnr : ¬ Reaches [((1 : Nat), (2 : Nat)), (2, 1)] 1 3 := by
    intro hr
    have hcl : ∀ x : Nat, Reaches [((1 : Nat), (2 : Nat)), (2, 1)] 1 x → x = 1 ∨ x = 2 := by
      intro x hx
      induction hx with
      | refl => exact Or.inl rfl
      | tail _ h2 _ =>
        have h2m : _ ∈ [((1 : Nat), (2 : Nat)), (2, 1)] := h2
        simp at h2m
        rcases h2m with ⟨hb, hc⟩ | ⟨hb, hc⟩
        · exact Or.inr hc
        · exact Or.inl hc
    rcases hcl 3 hr with h3 | h3 <;> omega
  refine ⟨?_, ?_, ?_⟩
  · exact h.1 1 (by decide) 2 (by decide)
      (Relation.ReflTransGen.single
        (show ((1 : Nat), (2 : Nat)) ∈ [((1 : Nat), (2 : Nat)), (2, 1)] by decide))
  · exact h.2.1 1 (by decide) 3 (by decide) hnr
  · exact h.2.2 3 (by decide)

/-- Claim C8: letters are consumed consecutively starting from A (letter
count 0): the letters in use always form an initial segment 0..k-1, and
whenever a treatment t is still unassigned after the prefix before it has
been processed, t receives exactly the next letter k, the alphabetically
earliest unused one. -/
theorem assign_letters_consecutive (edges : List (α × α)) (treatments : List α)
    (hsym : SymEdges edges) :
    (∃ k, ∀ l, (∃ x, assignGroups edges treatments x = some l) ↔ l < k) ∧
    (∀ pre t post, treatments = pre ++ t :: post →
      assignGroups edges pre t = none →
      ∃ k, (∀ l, (∃ x, assignGroups edges pre x = some l) ↔ l < k) ∧
        assignGroups edges treatments t = some k) := by
  constructor
  · have h := assignFold_inv edges hsym treatments
      { groups := fun _ => none, assigned := [], letter := 0 } (assignInv_init edges)
    exact ⟨_, inv_letters_initial_segment edges _ h.1⟩
  · intro pre t post hsplit hnone
    subst hsplit
    have hpre := assignFold_inv edges hsym pre
      { groups := fun _ => none, assigned := [], letter := 0 } (assignInv_init edges)
    set stPre := pre.foldl (assignStep edges)
      ({ groups := fun _ => none, assigned := [], letter := 0 } : AState α) with hstPre
    have ht : t ∉ stPre.assigned := by
      intro hmem
      have hsome := (hpre.1.1 t).2 hmem
      have : stPre.groups t = none := hnone
      rw [this] at hsome
      simp at hsome
    have hstep := assignStep_inv edges hsym stPre hpre.1 t
    have hlet : (assignStep edges stPre t).groups t = some stPre.letter := hstep.2.2.2 ht
    have hpost := assignFold_inv edges hsym post (assignStep edges stPre t) hstep.1
    refine ⟨stPre.letter, inv_letters_initial_segment edges stPre hpre.1, ?_⟩
    show ((pre ++ t :: post).foldl (assignStep edges) _).groups t = some stPre.letter
    rw [List.foldl_append, List.foldl_cons]
    rw [← hstPre]
    have hkeep := hpost.2.2 t hstep.2.1
    rw [hkeep.1, hlet]

/-- Claim C8 witness: with no edges and the single treatment 5, the used
letters form an initial segment. -/
theorem assign_letters_consecutive_witness :
    ∃ k, ∀ l, (∃ x, assignGroups ([] : List (Nat × Nat)) [5] x = some l) ↔ l < k := by
  have hsym : SymEdges ([] : List (Nat × Nat)) := by
    intro p hp
    simp at hp
  exact (assign_letters_consecutive ([] : List (Nat × Nat)) [5] hsym).1

/-- Claim C9: the letter-group assigner terminates.  In this model the
worklist loop is accepted by well-founded recursion on the measure
(worklist length plus twice the count of uncollected adjacency targets);
this theorem records the facts the specification's termination argument
rests on: the inner traversal collects each treatment at most once (the
component list has no duplicates and is bounded by the edge count), and
each outer iteration on a not-yet-assigned treatment strictly shrinks the
unassigned set (the treatment becomes assigned, nothing is unassigned). -/
theorem assigner_terminates (edges : List (α × α)) (t : α) (st : AState α) (u : α) :
    (componentFrom edges t).Nodup ∧
    t ∈ componentFrom edges t ∧
    (componentFrom edges t).length ≤ edges.length + 1 ∧
    (u ∉ st.assigned →
      u ∈ (assignStep edges st u).assigned ∧
      ∀ x ∈ st.assigned, x ∈ (assignStep edges st u).assigned) := by
  refine ⟨componentFrom_nodup edges t, self_mem_componentFrom edges t,
    componentFrom_length_le edges t, ?_⟩
  intro hu
  rw [assignStep, if_neg hu]
  exact ⟨List.mem_append_right _ (self_mem_componentFrom edges u),
    fun x hx => List.mem_append_left _ hx⟩

/-- Claim C9 witness: concrete instance of the termination facts. -/
theorem assigner_terminates_witness :
    (componentFrom [((1 : Nat), (2 : Nat))] 1).Nodup ∧
    5 ∈ (assignStep [((1 : Nat), (2 : Nat))]
      ({ groups := fun _ => none, assigned := [], letter := 0 } : AState Nat) 5).assigned := by
  have h := assigner_terminates [((1 : Nat), (2 : Nat))] 1
    ({ groups := fun _ => none, assigned := [], letter := 0 } : AState Nat) 5
  exact ⟨h.1, (h.2.2.2 (by simp)).1⟩

end Assigner

section RowExtractor

/- ASCII character-class predicates used by the regular expression and the
whitespace split at app.py:51-52 (codepoints: characters are modelled as
natural-number codepoints).  Python's re classes are Unicode by default;
the data rows in scope are ASCII and the model fixes the ASCII readings of
the classes backslash-s, backslash-w, backslash-d, A-Z and a-z. -/

def isSpaceC (c : Nat) : Bool :=
  c = 32 || c = 9 || c = 10 || c = 13 || c = 11 || c = 12

def isDigitC (c : Nat) : Bool := 48 ≤ c && c ≤ 57

def isUpperC (c : Nat) : Bool := 65 ≤ c && c ≤ 90

def isLowerC (c : Nat) : Bool := 97 ≤ c && c ≤ 122

def isWordC (c : Nat) : Bool := isUpperC c || isLowerC c || isDigitC c || c = 95

theorem word_not_space (c : Nat) (h : isWordC c = true) : isSpaceC c = false := by
  simp [isWordC, isUpperC, isLowerC, isDigitC] at h
  simp [isSpaceC]
  omega

theorem digit_not_space (c : Nat) (h : isDigitC c = true) : isSpaceC c = false := by
  simp [isDigitC] at h
  simp [isSpaceC]
  omega

theorem upper_not_space (c : Nat) (h : isUpperC c = true) : isSpaceC c = false := by
  simp [isUpperC] at h
  simp [isSpaceC]
  omega

/-- line.strip().split() of app.py:52: split a line into its maximal runs
of non-whitespace characters (str.split with no separator ignores leading
whitespace, which also makes the preceding strip redundant). -/
def wordsOf (l : List Nat) : List (List Nat) :=
  match l with
  | [] => []
  | c :: rest =>
    if isSpaceC c then wordsOf rest
    else ((c :: rest).takeWhile (fun x => !isSpaceC x))
      :: wordsOf ((c :: rest).dropWhile (fun x => !isSpaceC x))
termination_by l.length
decreasing_by
  · simp
  · simp only [List.dropWhile_cons]
    have hc : (!isSpaceC c) = true := by simp [*]
    rw [if_pos hc]
    have := (List.dropWhile_sublist (l := rest) (fun x => !isSpaceC x)).length_le
    simp
    omega

theorem wordsOf_spaces :
    ∀ (s rest : List Nat), (∀ c ∈ s, isSpaceC c = true) → wordsOf (s ++ rest) = wordsOf rest := by
  intro s
  induction s with
  | nil => intro rest _; rfl
  | cons c s ih =>
    intro rest hsp
    have hc : isSpaceC c = true := hsp c (List.mem_cons_self _ _)
    rw [List.cons_append, wordsOf, if_pos hc]
    exact ih rest (fun x hx => hsp x (List.mem_cons_of_mem _ hx))

theorem takeWhile_run_append (p : Nat → Bool) :
    ∀ (w rest : List Nat), (∀ c ∈ w, p c = true) → rest.takeWhile p = [] →
    (w ++ rest).takeWhile p = w ∧ (w ++ rest).dropWhile p = rest := by
  intro w
  induction w with
  | nil =>
    intro rest _ htw
    refine ⟨htw, ?_⟩
    cases rest with
    | nil => rfl
    | cons r rs =>
      rw [List.takeWhile_cons] at htw
      by_cases hp : p r = true
      · rw [if_pos hp] at htw; exact absurd htw (List.cons_ne_nil _ _)
      · rw [List.nil_append, List.dropWhile_cons, if_neg hp]
  | cons c w ih =>
    intro rest hall htw
    have hc : p c = true := hall c (List.mem_cons_self _ _)
    have hrec := ih rest (fun x hx => hall x (List.mem_cons_of_mem _ hx)) htw
    constructor
    · rw [List.cons_append, List.takeWhile_cons, if_pos hc, hrec.1]
    · rw [List.cons_append, List.dropWhile_cons, if_pos hc, hrec.2]

theorem wordsOf_run (w rest : List Nat) (hw : w ≠ [])
    (hall : ∀ c ∈ w, isSpaceC c = false)
    (htw : rest.takeWhile (fun x => !isSpaceC x) = []) :
    wordsOf (w ++ rest) = w :: wordsOf rest := by
  cases w with
  | nil => exact absurd rfl hw
  | cons c w2 =>
    have hallb : ∀ x ∈ c :: w2, (!isSpaceC x) = true := by
      intro x hx
      rw [hall x hx]
      rfl
    have hc : isSpaceC c = false := hall c (List.mem_cons_self _ _)
    have hsplit := takeWhile_run_append (fun x => !isSpaceC x) (c :: w2) rest hallb htw
    rw [List.cons_append, wordsOf, if_neg (by rw [hc]; exact Bool.false_ne_true)]
    rw [← List.cons_append, hsplit.1, hsplit.2]

/-- The gating regular expression of app.py:51 (anchored match of:
whitespace*, word+, whitespace+, digit+, dot, digit+, whitespace+,
uppercase+), compiled to a deterministic left-to-right scan.  Backtracking
cannot change the outcome because every adjacent pair of classes in the
pattern (whitespace / word / digit / the literal dot / uppercase) is
disjoint, so each repeated class can be taken as its maximal run. -/
def matchesRTF (l : List Nat) : Bool :=
  let r0 := l.dropWhile (fun c => isSpaceC c)
  let w := r0.takeWhile (fun c => isWordC c)
  let r1 := r0.dropWhile (fun c => isWordC c)
  let s1 := r1.takeWhile (fun c => isSpaceC c)
  let r2 := r1.dropWhile (fun c => isSpaceC c)
  let d1 := r2.takeWhile (fun c => isDigitC c)
  let r3 := r2.dropWhile (fun c => isDigitC c)
  match r3 with
  | [] => false
  | c3 :: r4 =>
    let d2 := r4.takeWhile (fun c => isDigitC c)
    let r5 := r4.dropWhile (fun c => isDigitC c)
    let s2 := r5.takeWhile (fun c => isSpaceC c)
    let r6 := r5.dropWhile (fun c => isSpaceC c)
    decide (c3 = 46) && !w.isEmpty && !s1.isEmpty && !d1.isEmpty &&
      !d2.isEmpty && !s2.isEmpty &&
      (match r6 with
       | [] => false
       | u :: _ => isUpperC u)

/-- Case folding of A-Z, used by float() for the special words inf and nan. -/
def toLowerC (c : Nat) : Nat := if 65 ≤ c ∧ c ≤ 90 then c + 32 else c

def pow10 (n : Nat) : ℚ := (10 : ℚ) ^ n

/-- Leading sign of a Python float literal. -/
def stripSign : List Nat → ℚ × List Nat
  | [] => (1, [])
  | c :: r =>
    if c = 43 then (1, r)
    else if c = 45 then (-1, r)
    else (1, c :: r)

/-- Digit-group scanner for Python float literals: one or more decimal
digits with single underscores allowed between digits (Python accepts
1_000.5 since 3.6).  Accumulates the value and the digit count; an
underscore not followed by a digit is left unconsumed, so trailing
underscores make the overall parse reject on leftover input. -/
def scanUDGo : Nat → Nat → List Nat → Nat × Nat × List Nat
  | acc, n, [] => (acc, n, [])
  | acc, n, c :: rest =>
    if isDigitC c then scanUDGo (acc * 10 + (c - 48)) (n + 1) rest
    else if c = 95 then
      match rest with
      | c2 :: rest2 =>
        if isDigitC c2 then scanUDGo (acc * 10 + (c2 - 48)) (n + 1) rest2
        else (acc, n, c :: rest)
      | [] => (acc, n, [c])
    else (acc, n, c :: rest)

def scanUD : List Nat → Option (Nat × Nat × List Nat)
  | [] => none
  | c :: rest => if isDigitC c then some (scanUDGo (c - 48) 1 rest) else none

/-- Mantissa of a Python float literal: digits, digits-dot, digits-dot-digits
or dot-digits, with its exact rational value and the unconsumed input
(46 is the codepoint of the decimal dot). -/
def parseMant (s : List Nat) : Option (ℚ × List Nat) :=
  match scanUD s with
  | some (v, _, r) =>
    match r with
    | c :: r2 =>
      if c = 46 then
        match scanUD r2 with
        | some (fv, fn, r3) => some ((v : ℚ) + (fv : ℚ) / pow10 fn, r3)
        | none => some ((v : ℚ), r2)
      else some ((v : ℚ), c :: r2)
    | [] => some ((v : ℚ), [])
  | none =>
    match s with
    | c :: r2 =>
      if c = 46 then
        match scanUD r2 with
        | some (fv, fn, r3) => some ((fv : ℚ) / pow10 fn, r3)
        | none => none
      else none
    | [] => none

def parseExpAfterE (m : ℚ) (r2 : List Nat) : Option (Option ℚ) :=
  match stripSign r2 with
  | (es, r3) =>
    match scanUD r3 with
    | some (ev, _, r5) =>
      if r5 = [] then some (some (if es < 0 then m / pow10 ev else m * pow10 ev))
      else none
    | none => none

/-- Optional exponent part of a Python float literal (101 and 69 are the
codepoints of e and E); everything after the mantissa must be consumed or
float() raises. -/
def parseExp : ℚ → List Nat → Option (Option ℚ)
  | m, [] => some (some m)
  | m, c :: r2 => if c = 101 || c = 69 then parseExpAfterE m r2 else none

def isSpecialFloat (low : List Nat) : Bool :=
  decide (low = [105, 110, 102]) || decide (low = [105, 110, 102, 105, 110, 105, 116, 121])
    || decide (low = [110, 97, 110])

/-- Python float() applied to one token (app.py:55): optional surrounding
whitespace, optional sign, then a case-insensitive special word (inf,
infinity, nan) or a decimal literal with optional exponent.  Returns none
when float() would raise ValueError, some none when the value is an IEEE
special (outside the rational model and unreachable for tokens accepted by
the row regex), and some (some q) with the exact decimal value otherwise. -/
def pyFloatParse (s0 : List Nat) : Option (Option ℚ) :=
  let p := stripSign (((s0.dropWhile (fun c => isSpaceC c)).reverse.dropWhile
      (fun c => isSpaceC c)).reverse)
  if isSpecialFloat (p.2.map toLowerC) then some none
  else
    match parseMant p.2 with
    | none => none
    | some (m, r) => parseExp (p.1 * m) r

def pyFloatAccepts (s : List Nat) : Bool := (pyFloatParse s).isSome

/-- One parsed row (app.py:54-57): Treatment, Mean, Group. -/
structure RtfRecord where
  treatment : List Nat
  mean : ℚ
  group : List Nat
deriving DecidableEq

/-- Loop body of parse_rtf_content (app.py:50-57) for one line: the line
must match the gating regex, is then stripped and split into
whitespace-separated parts, and with at least 3 parts yields a record from
parts 0, 1 and 2.  float(parts[1]) at app.py:55 would raise were it to
fail, but any line passing the regex has a digits.digits second part, on
which float always succeeds (theorem pyFloat_digits_dot_digits); the
unreachable failure branch returns none. -/
def lineRecord (l : List Nat) : Option RtfRecord :=
  if matchesRTF l then
    if 3 ≤ (wordsOf l).length then
      match pyFloatParse ((wordsOf l).getD 1 []) with
      | some (some q) => some ⟨(wordsOf l).getD 0 [], q, (wordsOf l).getD 2 []⟩
      | _ => none
    else none
  else none

/-- parse_rtf_content (app.py:47-58) over a sequence of lines: collect the
records of qualifying lines, preserving input order. -/
def parseLines (lines : List (List Nat)) : List RtfRecord :=
  lines.filterMap lineRecord

theorem dropWhile_eq_self_all (p : Nat → Bool) :
    ∀ l : List Nat, (∀ c ∈ l, p c = false) → l.dropWhile p = l := by
  intro l h
  cases l with
  | nil => rfl
  | cons c rest =>
    rw [List.dropWhile_cons,
      if_neg (by rw [h c (List.mem_cons_self _ _)]; exact Bool.false_ne_true)]

theorem scanUDGo_cons (acc n c : Nat) (rest : List Nat) :
    scanUDGo acc n (c :: rest) =
      if isDigitC c then scanUDGo (acc * 10 + (c - 48)) (n + 1) rest
      else if c = 95 then
        match rest with
        | c2 :: rest2 =>
          if isDigitC c2 then scanUDGo (acc * 10 + (c2 - 48)) (n + 1) rest2
          else (acc, n, c :: rest)
        | [] => (acc, n, [c])
      else (acc, n, c :: rest) := by
  rw [scanUDGo.eq_def]

theorem scanUDGo_run :
    ∀ (d : List Nat) (acc n : Nat) (rest : List Nat),
    (∀ c ∈ d, isDigitC c = true) →
    isDigitC (rest.headD 0) = false → rest.headD 0 ≠ 95 →
    ∃ v, scanUDGo acc n (d ++ rest) = (v, n + d.length, rest) := by
  intro d
  induction d with
  | nil =>
    intro acc n rest _ hnd hn95
    cases rest with
    | nil => exact ⟨acc, rfl⟩
    | cons c rs =>
      simp only [List.headD_cons] at hnd hn95
      refine ⟨acc, ?_⟩
      rw [List.nil_append, scanUDGo_cons,
        if_neg (by rw [hnd]; exact Bool.false_ne_true), if_neg hn95]
      simp
  | cons c d ih =>
    intro acc n rest hall hnd hn95
    have hc : isDigitC c = true := hall c (List.mem_cons_self _ _)
    obtain ⟨v, hv⟩ := ih (acc * 10 + (c - 48)) (n + 1) rest
      (fun x hx => hall x (List.mem_cons_of_mem _ hx)) hnd hn95
    refine ⟨v, ?_⟩
    rw [List.cons_append, scanUDGo_cons, if_pos hc, hv]
    simp
    omega

theorem scanUD_run (d rest : List Nat) (hd : d ≠ [])
    (hall : ∀ c ∈ d, isDigitC c = true)
    (hnd : isDigitC (rest.headD 0) = false) (hn95 : rest.headD 0 ≠ 95) :
    ∃ v, scanUD (d ++ rest) = some (v, d.length, rest) := by
  cases d with
  | nil => exact absurd rfl hd
  | cons c d2 =>
    have hc := hall c (List.mem_cons_self _ _)
    obtain ⟨v, hv⟩ := scanUDGo_run d2 (c - 48) 1 rest
      (fun x hx => hall x (List.mem_cons_of_mem _ hx)) hnd hn95
    refine ⟨v, ?_⟩
    rw [List.cons_append, scanUD, if_pos hc, hv]
    simp
    omega

theorem stripSign_other (c : Nat) (r : List Nat) (h43 : c ≠ 43) (h45 : c ≠ 45) :
    stripSign (c :: r) = (1, c :: r) := by
  rw [stripSign, if_neg h43, if_neg h45]

/-- float() succeeds on every digits.digits token, the only numeric shape
the row regex of app.py:51 lets through as the second part. -/
theorem pyFloat_digits_dot_digits (d1 d2 : List Nat) (h1 : d1 ≠ []) (h2 : d2 ≠ [])
    (ha1 : ∀ c ∈ d1, isDigitC c = true) (ha2 : ∀ c ∈ d2, isDigitC c = true) :
    ∃ q, pyFloatParse (d1 ++ 46 :: d2) = some (some q) := by
  have hall_ns : ∀ c ∈ d1 ++ 46 :: d2, isSpaceC c = false := by
    intro c hc
    rcases List.mem_append.1 hc with h | h
    · exact digit_not_space c (ha1 c h)
    · rcases List.mem_cons.1 h with rfl | h
      · rfl
      · exact digit_not_space c (ha2 c h)
  have htrim : (((d1 ++ 46 :: d2).dropWhile (fun c => isSpaceC c)).reverse.dropWhile
      (fun c => isSpaceC c)).reverse = d1 ++ 46 :: d2 := by
    rw [dropWhile_eq_self_all _ _ hall_ns,
      dropWhile_eq_self_all _ _ (fun c hc => hall_ns c (List.mem_reverse.1 hc)),
      List.reverse_reverse]
  obtain ⟨c0, d1t, rfl⟩ : ∃ c0 d1t, d1 = c0 :: d1t := by
    cases d1 with
    | nil => exact absurd rfl h1
    | cons a b => exact ⟨a, b, rfl⟩
  have hc0 : isDigitC c0 = true := ha1 c0 (List.mem_cons_self _ _)
  have hc0r : 48 ≤ c0 ∧ c0 ≤ 57 := by
    simp [isDigitC] at hc0
    exact hc0
  have hsign : stripSign ((c0 :: d1t) ++ 46 :: d2) = (1, (c0 :: d1t) ++ 46 :: d2) := by
    rw [List.cons_append]
    exact stripSign_other c0 _ (by omega) (by omega)
  have hlow : toLowerC c0 = c0 := by
    rw [toLowerC, if_neg (by omega)]
  have hspec : isSpecialFloat (((c0 :: d1t) ++ 46 :: d2).map toLowerC) = false := by
    rw [List.cons_append, List.map_cons, hlow]
    simp only [isSpecialFloat, Bool.or_eq_false_iff, decide_eq_false_iff_not]
    refine ⟨⟨?_, ?_⟩, ?_⟩ <;> intro heq <;> rw [List.cons.injEq] at heq <;> omega
  obtain ⟨v1, hv1⟩ := scanUD_run (c0 :: d1t) (46 :: d2) (List.cons_ne_nil _ _) ha1
    (by rfl) (by simp)
  obtain ⟨v2, hv2⟩ := scanUD_run d2 [] h2 ha2 (by rfl) (by simp)
  rw [List.append_nil] at hv2
  have hmant : parseMant ((c0 :: d1t) ++ 46 :: d2)
      = some ((v1 : ℚ) + (v2 : ℚ) / pow10 d2.length, []) := by
    unfold parseMant
    rw [hv1]
    dsimp only
    rw [if_pos rfl, hv2]
  refine ⟨(v1 : ℚ) + (v2 : ℚ) / pow10 d2.length, ?_⟩
  unfold pyFloatParse
  dsimp only
  rw [htrim, hsign]
  dsimp only
  rw [if_neg (by rw [hspec]; exact Bool.false_ne_true), hmant]
  dsimp only [parseExp]
  rw [one_mul]

theorem takeWhile_ne_nil_head (p : Nat → Bool) (l : List Nat)
    (h : l.takeWhile p ≠ []) : ∃ c rest, l = c :: rest ∧ p c = true := by
  cases l with
  | nil => simp at h
  | cons c rest =>
    rw [List.takeWhile_cons] at h
    by_cases hp : p c = true
    · exact ⟨c, rest, rfl, hp⟩
    · rw [if_neg hp] at h
      exact absurd rfl h

theorem takeWhile_nonspace_nil (l : List Nat)
    (h : l.takeWhile (fun c => isSpaceC c) ≠ []) :
    l.takeWhile (fun x => !isSpaceC x) = [] := by
  obtain ⟨c, rest, rfl, hc⟩ := takeWhile_ne_nil_head _ l h
  rw [List.takeWhile_cons, if_neg (by rw [hc]; simp)]

/-- Structure of a line accepted by the regex of app.py:51: its whitespace
split begins with a word-character token, then a digits.digits token, then
a token starting with an uppercase letter. -/
theorem matchesRTF_decomp (l : List Nat) (h : matchesRTF l = true) :
    ∃ w d1 d2 u t3rest more,
      wordsOf l = w :: (d1 ++ 46 :: d2) :: (u :: t3rest) :: more ∧
      w ≠ [] ∧ (∀ c ∈ w, isWordC c = true) ∧
      d1 ≠ [] ∧ (∀ c ∈ d1, isDigitC c = true) ∧
      d2 ≠ [] ∧ (∀ c ∈ d2, isDigitC c = true) ∧
      isUpperC u = true := by
  unfold matchesRTF at h
  dsimp only at h
  rcases hr3 : ((l.dropWhile (fun c => isSpaceC c)).dropWhile (fun c => isWordC c)).dropWhile
      (fun c => isSpaceC c) |>.dropWhile (fun c => isDigitC c) with _ | ⟨c3, r4⟩
  · rw [hr3] at h
    simp at h
  · rw [hr3] at h
    dsimp only at h
    rcases hr6 : ((r4.dropWhile (fun c => isDigitC c)).dropWhile (fun c => isSpaceC c))
      with _ | ⟨u, r7⟩
    · rw [hr6] at h
      simp at h
    · rw [hr6] at h
      simp only [Bool.and_eq_true, decide_eq_true_eq, Bool.not_eq_true',
        List.isEmpty_eq_false] at h
      obtain ⟨⟨⟨⟨⟨⟨h46, hwne⟩, hs1ne⟩, hd1ne⟩, hd2ne⟩, hs2ne⟩, hu⟩ := h
      subst h46
      -- the named pieces of the scan
      have hsp0 : ∀ c ∈ l.takeWhile (fun c => isSpaceC c), isSpaceC c = true :=
        fun c hc => List.mem_takeWhile_imp hc
      have hword : ∀ c ∈ (l.dropWhile (fun c => isSpaceC c)).takeWhile (fun c => isWordC c),
          isWordC c = true := fun c hc => List.mem_takeWhile_imp hc
      have hd1all : ∀ c ∈ (((l.dropWhile (fun c => isSpaceC c)).dropWhile
          (fun c => isWordC c)).dropWhile (fun c => isSpaceC c)).takeWhile
          (fun c => isDigitC c), isDigitC c = true := fun c hc => List.mem_takeWhile_imp hc
      have hd2all : ∀ c ∈ r4.takeWhile (fun c => isDigitC c), isDigitC c = true :=
        fun c hc => List.mem_takeWhile_imp hc
      -- step 1: leading spaces
      have e1 : wordsOf l = wordsOf (l.dropWhile (fun c => isSpaceC c)) := by
        conv_lhs => rw [← List.takeWhile_append_dropWhile (fun c => isSpaceC c) l]
        exact wordsOf_spaces _ _ hsp0
      -- step 2: the word token
      have e2 : wordsOf (l.dropWhile (fun c => isSpaceC c))
          = ((l.dropWhile (fun c => isSpaceC c)).takeWhile (fun c => isWordC c))
            :: wordsOf ((l.dropWhile (fun c => isSpaceC c)).dropWhile (fun c => isWordC c)) := by
        conv_lhs => rw [← List.takeWhile_append_dropWhile (fun c => isWordC c)
          (l.dropWhile (fun c => isSpaceC c))]
        exact wordsOf_run _ _ hwne (fun c hc => word_not_space c (hword c hc))
          (takeWhile_nonspace_nil _ hs1ne)
      -- step 3: the separating spaces
      have e3 : wordsOf ((l.dropWhile (fun c => isSpaceC c)).dropWhile (fun c => isWordC c))
          = wordsOf (((l.dropWhile (fun c => isSpaceC c)).dropWhile
            (fun c => isWordC c)).dropWhile (fun c => isSpaceC c)) := by
        conv_lhs => rw [← List.takeWhile_append_dropWhile (fun c => isSpaceC c)
          ((l.dropWhile (fun c => isSpaceC c)).dropWhile (fun c => isWordC c))]
        exact wordsOf_spaces _ _ (fun c hc => List.mem_takeWhile_imp hc)
      -- step 4: the digits.digits token
      have hr2split : ((l.dropWhile (fun c => isSpaceC c)).dropWhile
          (fun c => isWordC c)).dropWhile (fun c => isSpaceC c)
          = ((((l.dropWhile (fun c => isSpaceC c)).dropWhile (fun c => isWordC c)).dropWhile
              (fun c => isSpaceC c)).takeWhile (fun c => isDigitC c)
            ++ 46 :: r4.takeWhile (fun c => isDigitC c))
            ++ r4.dropWhile (fun c => isDigitC c) := by
        conv_lhs => rw [← List.takeWhile_append_dropWhile (fun c => isDigitC c)
          ((((l.dropWhile (fun c => isSpaceC c)).dropWhile (fun c => isWordC c)).dropWhile
            (fun c => isSpaceC c)))]
        rw [hr3]
        conv_lhs => rw [← List.takeWhile_append_dropWhile (fun c => isDigitC c) r4]
        simp
      have e4 : wordsOf (((l.dropWhile (fun c => isSpaceC c)).dropWhile
            (fun c => isWordC c)).dropWhile (fun c => isSpaceC c))
          = ((((l.dropWhile (fun c => isSpaceC c)).dropWhile (fun c => isWordC c)).dropWhile
              (fun c => isSpaceC c)).takeWhile (fun c => isDigitC c)
            ++ 46 :: r4.takeWhile (fun c => isDigitC c))
            :: wordsOf (r4.dropWhile (fun c => isDigitC c)) := by
        conv_lhs => rw [hr2split]
        apply wordsOf_run
        · simp
        · intro c hc
          rcases List.mem_append.1 hc with hcd | hcd
          · exact digit_not_space c (hd1all c hcd)
          · rcases List.mem_cons.1 hcd with rfl | hcd
            · rfl
            · exact digit_not_space c (hd2all c hcd)
        · exact takeWhile_nonspace_nil _ hs2ne
      -- step 5: the second separating spaces
      have e5 : wordsOf (r4.dropWhile (fun c => isDigitC c))
          = wordsOf ((r4.dropWhile (fun c => isDigitC c)).dropWhile (fun c => isSpaceC c)) := by
        conv_lhs => rw [← List.takeWhile_append_dropWhile (fun c => isSpaceC c)
          (r4.dropWhile (fun c => isDigitC c))]
        exact wordsOf_spaces _ _ (fun c hc => List.mem_takeWhile_imp hc)
      -- step 6: the group token starts with an uppercase letter
      have e6 : wordsOf ((r4.dropWhile (fun c => isDigitC c)).dropWhile (fun c => isSpaceC c))
          = (u :: r7.takeWhile (fun x => !isSpaceC x))
            :: wordsOf ((u :: r7).dropWhile (fun x => !isSpaceC x)) := by
        rw [hr6, wordsOf, if_neg (by rw [upper_not_space u hu]; exact Bool.false_ne_true)]
        rw [List.takeWhile_cons, if_pos (by rw [upper_not_space u hu]; rfl)]
      refine ⟨_, _, _, u, r7.takeWhile (fun x => !isSpaceC x),
        wordsOf ((u :: r7).dropWhile (fun x => !isSpaceC x)),
        ?_, hwne, hword, hd1ne, hd1all, hd2ne, hd2all, hu⟩
      rw [e1, e2, e3, e4, e5, e6]

theorem scanUDGo_nil (acc n : Nat) : scanUDGo acc n [] = (acc, n, []) := by
  rw [scanUDGo.eq_def]

/-- Claim C2: the row extractor emits no record for any line with fewer
than 3 whitespace-separated parts or whose second part float() rejects;
it returns the qualifying records in input line order (extraction
distributes over concatenation of line sequences, each line contributing
its record, if any, in place), and a non-matching line never raises: it
simply yields no record. -/
theorem row_extractor_sound (lines : List (List Nat)) :
    (∀ line ∈ lines,
      ((wordsOf line).length < 3 ∨ pyFloatAccepts ((wordsOf line).getD 1 []) = false) →
      lineRecord line = none) ∧
    (∀ pre post : List (List Nat),
      parseLines (pre ++ post) = parseLines pre ++ parseLines post) ∧
    (∀ line ∈ lines, matchesRTF line = false → lineRecord line = none) := by
  refine ⟨?_, ?_, ?_⟩
  · intro line _ hbad
    by_cases hm : matchesRTF line = true
    · exfalso
      obtain ⟨w, d1, d2, u, t3rest, more, heq, hwne, _, hd1ne, hd1all, hd2ne, hd2all, _⟩ :=
        matchesRTF_decomp line hm
      rcases hbad with hlen | hfl
      · rw [heq] at hlen
        simp at hlen
        omega
      · rw [heq] at hfl
        obtain ⟨q, hq⟩ := pyFloat_digits_dot_digits d1 d2 hd1ne hd2ne hd1all hd2all
        simp only [List.getD_cons_succ, List.getD_cons_zero, pyFloatAccepts] at hfl
        rw [hq] at hfl
        simp at hfl
    · rw [lineRecord, if_neg hm]
  · intro pre post
    exact List.filterMap_append pre post lineRecord
  · intro line _ hm
    rw [lineRecord, if_neg (by rw [hm]; exact Bool.false_ne_true)]

/-- Claim C2 witness: the empty line has fewer than 3 parts and yields no
record. -/
theorem row_extractor_sound_witness : lineRecord [] = none :=
  (row_extractor_sound [[]]).1 [] (by simp) (Or.inl (by simp [wordsOf]))

/-- Claim C10: a record is emitted only when the line consists of a
nonempty word-character token, then a number written as one-or-more
digits, a dot and one-or-more digits, then a token starting with an
uppercase letter; consequently a second token that is an integer, signed,
or in scientific notation, or a third token starting with a lowercase
letter, yields no record even with three or more tokens, as the four
appended concrete lines (T1 10 A, T1 -2.5 A, T1 1e3 A, T1 2.5 a) show. -/
theorem rtf_row_shape :
    (∀ l : List Nat, (lineRecord l).isSome = true →
      3 ≤ (wordsOf l).length ∧
      (wordsOf l).getD 0 [] ≠ [] ∧
      (∀ c ∈ (wordsOf l).getD 0 [], isWordC c = true) ∧
      (∃ d1 d2, d1 ≠ [] ∧ d2 ≠ [] ∧ (∀ c ∈ d1, isDigitC c = true) ∧
        (∀ c ∈ d2, isDigitC c = true) ∧ (wordsOf l).getD 1 [] = d1 ++ 46 :: d2) ∧
      (∃ u rest, (wordsOf l).getD 2 [] = u :: rest ∧ isUpperC u = true)) ∧
    lineRecord [84, 49, 32, 49, 48, 32, 65] = none ∧
    lineRecord [84, 49, 32, 45, 50, 46, 53, 32, 65] = none ∧
    lineRecord [84, 49, 32, 49, 101, 51, 32, 65] = none ∧
    lineRecord [84, 49, 32, 50, 46, 53, 32, 97] = none := by
  refine ⟨?_, by decide, by decide, by decide, by decide⟩
  intro l h
  have hm : matchesRTF l = true := by
    by_contra hm
    rw [lineRecord, if_neg hm] at h
    simp at h
  obtain ⟨w, d1, d2, u, t3rest, more, heq, hwne, hword, hd1ne, hd1all, hd2ne, hd2all, hu⟩ :=
    matchesRTF_decomp l hm
  rw [heq]
  simp only [List.getD_cons_zero, List.getD_cons_succ, List.length_cons]
  exact ⟨by omega, hwne, hword, ⟨d1, d2, hd1ne, hd2ne, hd1all, hd2all, rfl⟩,
    ⟨u, t3rest, rfl, hu⟩⟩

end RowExtractor

section Normalizer

def utf8Cont (b : Nat) : Bool := 128 ≤ b && b ≤ 191

/-- rtf_bytes.decode(errors="ignore") at app.py:151: UTF-8 decoding of a
byte sequence into codepoints where every maximal ill-formed subsequence
is dropped instead of raising (CPython's ignore error handler). -/
def decodeIgnore : List Nat → List Nat
  | [] => []
  | b :: rest =>
    if b < 128 then b :: decodeIgnore rest
    else if 194 ≤ b ∧ b ≤ 223 then
      match h2 : rest with
      | b2 :: rest2 =>
        if utf8Cont b2 then ((b - 192) * 64 + (b2 - 128)) :: decodeIgnore rest2
        else decodeIgnore rest
      | [] => []
    else if 224 ≤ b ∧ b ≤ 239 then
      match h2 : rest with
      | b2 :: rest2 =>
        if (b = 224 ∧ 160 ≤ b2 ∧ b2 ≤ 191) ∨
            (225 ≤ b ∧ b ≤ 236 ∧ utf8Cont b2 = true) ∨
            (b = 237 ∧ 128 ≤ b2 ∧ b2 ≤ 159) ∨
            (238 ≤ b ∧ b ≤ 239 ∧ utf8Cont b2 = true) then
          match h3 : rest2 with
          | b3 :: rest3 =>
            if utf8Cont b3 then
              ((b - 224) * 4096 + (b2 - 128) * 64 + (b3 - 128)) :: decodeIgnore rest3
            else decodeIgnore rest2
          | [] => []
        else decodeIgnore rest
      | [] => []
    else if 240 ≤ b ∧ b ≤ 244 then
      match h2 : rest with
      | b2 :: rest2 =>
        if (b = 240 ∧ 144 ≤ b2 ∧ b2 ≤ 191) ∨
            (241 ≤ b ∧ b ≤ 243 ∧ utf8Cont b2 = true) ∨
            (b = 244 ∧ 128 ≤ b2 ∧ b2 ≤ 143) then
          match h3 : rest2 with
          | b3 :: rest3 =>
            if utf8Cont b3 then
              match h4 : rest3 with
              | b4 :: rest4 =>
                if utf8Cont b4 then
                  ((b - 240) * 262144 + (b2 - 128) * 4096 + (b3 - 128) * 64 + (b4 - 128))
                    :: decodeIgnore rest4
                else decodeIgnore rest3
              | [] => []
            else decodeIgnore rest2
          | [] => []
        else decodeIgnore rest
      | [] => []
    else decodeIgnore rest
termination_by l => l.length
decreasing_by all_goals (simp_all; try omega)

/-- Modelled from the spec: §4.1 step 1, removal of the curly-brace
grouping delimiters (codepoints 123 and 125).  The normalizer passes
themselves live in repository revisions not included under src;
src/app.py:149-152 retains only the tolerant byte decoding before row
extraction, so steps 1-5 follow the specification text. -/
def stripBraces (s : List Nat) : List Nat :=
  s.filter (fun c => !(c = 123 || c = 125))

/-- Modelled from the spec: §4.1 step 2, mapping one markup token (a
nonempty codepoint sequence headed by c0) to one plain character repl, by
leftmost non-overlapping literal substring replacement. -/
def replaceTok (c0 : Nat) (ctail : List Nat) (repl : Nat) : List Nat → List Nat
  | [] => []
  | c :: rest =>
    if c = c0 ∧ ctail.isPrefixOf rest then
      repl :: replaceTok c0 ctail repl (rest.drop ctail.length)
    else c :: replaceTok c0 ctail repl rest
termination_by s => s.length
decreasing_by
  · have := List.length_drop ctail.length rest
    simp
    omega
  · simp

/-- Modelled from the spec: §4.1 step 3, removal of remaining markup
command tokens: a backslash (92), one or more lowercase letters, optional
trailing digits. -/
def stripCommands : List Nat → List Nat
  | [] => []
  | c :: rest =>
    if c = 92 ∧ (rest.takeWhile isLowerC).isEmpty = false then
      stripCommands ((rest.dropWhile isLowerC).dropWhile isDigitC)
    else c :: stripCommands rest
termination_by s => s.length
decreasing_by
  · have h1 := (List.dropWhile_sublist (l := rest) isLowerC).length_le
    have h2 := (List.dropWhile_sublist (l := rest.dropWhile isLowerC) isDigitC).length_le
    simp
    omega
  · simp

/-- Modelled from the spec: §4.1 step 4, removal of stray backslashes. -/
def stripBackslashes (s : List Nat) : List Nat :=
  s.filter (fun c => !(c = 92))

/-- Modelled from the spec: §4.1 step 5, splitting the cleaned text on
newline characters (codepoint 10). -/
def splitNL : List Nat → List (List Nat)
  | [] => [[]]
  | c :: rest =>
    if c = 10 then [] :: splitNL rest
    else
      match splitNL rest with
      | [] => [[c]]
      | l :: ls => (c :: l) :: ls

/-- Modelled from the spec: the Text Normalizer of §4.1.  Decode the raw
bytes tolerantly (the step kept at src/app.py:151), then in order: remove
braces, map the tab token (backslash t a b) to a tab (9) and the paragraph
token (backslash p a r) to a newline (10), remove backslash-letter-digit
command tokens, remove stray backslashes, and split into lines. -/
def textNormalize (bytes : List Nat) : List (List Nat) :=
  splitNL (stripBackslashes (stripCommands
    (replaceTok 92 [112, 97, 114] 10
      (replaceTok 92 [116, 97, 98] 9
        (stripBraces (decodeIgnore bytes))))))

set_option maxHeartbeats 4000000 in
set_option maxRecDepth 4000 in
theorem decodeIgnore_valid (bs : List Nat) :
    ∀ x ∈ decodeIgnore bs, x < 1114112 ∧ ¬(55296 ≤ x ∧ x ≤ 57343) := by
  induction bs using decodeIgnore.induct
  all_goals intro x hx
  all_goals unfold decodeIgnore at hx
  all_goals try simp only [utf8Cont, Bool.and_eq_true, decide_eq_true_eq] at *
  all_goals try split_ifs at hx
  all_goals
    first
      | (exfalso; omega)
      | (exact absurd hx (List.not_mem_nil x))
      | (obtain rfl | hx2 := List.mem_cons.1 hx
         · exact ⟨by omega, by omega⟩
         · simp_all)
      | simp_all

theorem decodeIgnore_ascii (bs : List Nat) (h : ∀ b ∈ bs, b < 128) :
    decodeIgnore bs = bs := by
  induction bs with
  | nil => rw [decodeIgnore.eq_def]
  | cons b rest ih =>
    have hb : b < 128 := h b (List.mem_cons_self _ _)
    rw [decodeIgnore.eq_def]
    dsimp only
    rw [if_pos hb, ih (fun x hx => h x (List.mem_cons_of_mem _ hx))]

theorem replaceTok_nil (c0 : Nat) (ct : List Nat) (r : Nat) :
    replaceTok c0 ct r [] = [] := by
  rw [replaceTok.eq_def]

theorem replaceTok_cons (c0 : Nat) (ct : List Nat) (r c : Nat) (rest : List Nat) :
    replaceTok c0 ct r (c :: rest) =
      if c = c0 ∧ ct.isPrefixOf rest then r :: replaceTok c0 ct r (rest.drop ct.length)
      else c :: replaceTok c0 ct r rest := by
  rw [replaceTok.eq_def]

theorem stripCommands_nil : stripCommands [] = [] := by
  rw [stripCommands.eq_def]

theorem stripCommands_cons (c : Nat) (rest : List Nat) :
    stripCommands (c :: rest) =
      if c = 92 ∧ (rest.takeWhile isLowerC).isEmpty = false then
        stripCommands ((rest.dropWhile isLowerC).dropWhile isDigitC)
      else c :: stripCommands rest := by
  rw [stripCommands.eq_def]

theorem mem_stripBraces (s : List Nat) (c : Nat) (h : c ∈ stripBraces s) :
    c ∈ s ∧ c ≠ 123 ∧ c ≠ 125 := by
  obtain ⟨hm, hp⟩ := List.mem_filter.1 h
  simp at hp
  exact ⟨hm, hp.1, hp.2⟩

theorem mem_stripBackslashes (s : List Nat) (c : Nat) (h : c ∈ stripBackslashes s) :
    c ∈ s ∧ c ≠ 92 := by
  obtain ⟨hm, hp⟩ := List.mem_filter.1 h
  simp at hp
  exact ⟨hm, hp⟩

theorem mem_replaceTok (c0 : Nat) (ct : List Nat) (r : Nat) :
    ∀ (s : List Nat), ∀ c ∈ replaceTok c0 ct r s, c ∈ s ∨ c = r := by
  intro s
  induction s using replaceTok.induct c0 ct r with
  | case1 =>
    intro c hc
    rw [replaceTok_nil] at hc
    exact absurd hc (List.not_mem_nil c)
  | case2 c2 rest hcond ih =>
    intro c hc
    rw [replaceTok_cons, if_pos hcond] at hc
    rcases List.mem_cons.1 hc with rfl | h2
    · exact Or.inr rfl
    · rcases ih c h2 with h3 | h3
      · exact Or.inl (List.mem_cons_of_mem _ (List.drop_subset _ _ h3))
      · exact Or.inr h3
  | case3 c2 rest hcond ih =>
    intro c hc
    rw [replaceTok_cons, if_neg hcond] at hc
    rcases List.mem_cons.1 hc with rfl | h2
    · exact Or.inl (List.mem_cons_self _ _)
    · rcases ih c h2 with h3 | h3
      · exact Or.inl (List.mem_cons_of_mem _ h3)
      · exact Or.inr h3

theorem mem_stripCommands :
    ∀ (s : List Nat), ∀ c ∈ stripCommands s, c ∈ s := by
  intro s
  induction s using stripCommands.induct with
  | case1 =>
    intro c hc
    rw [stripCommands_nil] at hc
    exact absurd hc (List.not_mem_nil c)
  | case2 c2 rest hcond ih =>
    intro c hc
    rw [stripCommands_cons, if_pos hcond] at hc
    exact List.mem_cons_of_mem _
      (((List.dropWhile_sublist _).trans (List.dropWhile_sublist _)).subset (ih c hc))
  | case3 c2 rest hcond ih =>
    intro c hc
    rw [stripCommands_cons, if_neg hcond] at hc
    rcases List.mem_cons.1 hc with rfl | h2
    · exact List.mem_cons_self _ _
    · exact List.mem_cons_of_mem _ (ih c h2)

theorem splitNL_ne_nil : ∀ s : List Nat, splitNL s ≠ [] := by
  intro s
  induction s with
  | nil => simp [splitNL]
  | cons c rest ih =>
    simp only [splitNL]
    by_cases h10 : c = 10
    · rw [if_pos h10]
      simp
    · rw [if_neg h10]
      rcases hsp : splitNL rest with _ | ⟨l, ls⟩
      · simp
      · simp

theorem mem_splitNL : ∀ (s line : List Nat), line ∈ splitNL s →
    ∀ c ∈ line, c ∈ s ∧ c ≠ 10 := by
  intro s
  induction s with
  | nil =>
    intro line hline c hc
    simp [splitNL] at hline
    subst hline
    simp at hc
  | cons b rest ih =>
    intro line hline c hc
    simp only [splitNL] at hline
    by_cases h10 : b = 10
    · rw [if_pos h10] at hline
      rcases List.mem_cons.1 hline with rfl | h2
      · simp at hc
      · have h := ih line h2 c hc
        exact ⟨List.mem_cons_of_mem _ h.1, h.2⟩
    · rw [if_neg h10] at hline
      rcases hsp : splitNL rest with _ | ⟨l, ls⟩
      · exact absurd hsp (splitNL_ne_nil rest)
      · rw [hsp] at hline
        rcases List.mem_cons.1 hline with rfl | h2
        · rcases List.mem_cons.1 hc with rfl | hcl
          · exact ⟨List.mem_cons_self _ _, h10⟩
          · have h := ih l (by rw [hsp]; exact List.mem_cons_self _ _) c hcl
            exact ⟨List.mem_cons_of_mem _ h.1, h.2⟩
        · have h := ih line (by rw [hsp]; exact List.mem_cons_of_mem _ h2) c hc
          exact ⟨List.mem_cons_of_mem _ h.1, h.2⟩

/-- Claim C3: the Text Normalizer decodes tolerantly (its output consists
only of valid scalar codepoints, and on an all-ASCII input the byte
sequence is kept intact, so a total function covers every input), and the
ordered substitution passes leave no markup behind: no output line
contains a brace, a backslash or a newline.  The concrete equation runs
the whole pipeline on the bytes of a small rich-text fragment
(brace, backslash r t f 1, space, a, backslash t a b, space, b,
backslash p a r, space, c, brace), showing braces removed first, the tab
and paragraph tokens mapped to tab and newline before command stripping,
the rtf1 command removed, and the newline split done last.
Status note: spec-modelled (see the stripBraces doc comment). -/
theorem text_normalizer_spec (bytes : List Nat) :
    (∀ x ∈ decodeIgnore bytes, x < 1114112 ∧ ¬(55296 ≤ x ∧ x ≤ 57343)) ∧
    ((∀ b ∈ bytes, b < 128) → decodeIgnore bytes = bytes) ∧
    (∀ line ∈ textNormalize bytes, ∀ c ∈ line, c ≠ 123 ∧ c ≠ 125 ∧ c ≠ 92 ∧ c ≠ 10) ∧
    textNormalize [123, 92, 114, 116, 102, 49, 32, 97, 92, 116, 97, 98, 32, 98,
      92, 112, 97, 114, 32, 99, 125] = [[32, 97, 9, 32, 98], [32, 99]] := by
  refine ⟨decodeIgnore_valid bytes, decodeIgnore_ascii bytes, ?_, ?_⟩
  · intro line hline c hc
    have h1 := mem_splitNL _ line hline c hc
    have h2 := mem_stripBackslashes _ c h1.1
    have h3 := mem_stripCommands _ c h2.1
    have h4 := mem_replaceTok 92 [112, 97, 114] 10 _ c h3
    rcases h4 with h4 | rfl
    · have h5 := mem_replaceTok 92 [116, 97, 98] 9 _ c h4
      rcases h5 with h5 | rfl
      · have h6 := mem_stripBraces _ c h5
        exact ⟨h6.2.1, h6.2.2, h2.2, h1.2⟩
      · exact ⟨by omega, by omega, h2.2, h1.2⟩
    · exact absurd rfl h1.2
  · have hdec : decodeIgnore [123, 92, 114, 116, 102, 49, 32, 97, 92, 116, 97, 98, 32, 98,
        92, 112, 97, 114, 32, 99, 125] = [123, 92, 114, 116, 102, 49, 32, 97, 92, 116, 97,
        98, 32, 98, 92, 112, 97, 114, 32, 99, 125] :=
      decodeIgnore_ascii _ (by decide)
    rw [textNormalize, hdec]
    simp [stripBraces, replaceTok_cons, replaceTok_nil, stripCommands_cons, stripCommands_nil,
      stripBackslashes, splitNL, List.isPrefixOf, isLowerC, isDigitC, List.takeWhile,
      List.dropWhile]

/-- Claim C3 witness: tolerant decoding keeps a concrete ASCII input
intact. -/
theorem text_normalizer_spec_witness : decodeIgnore [72, 105] = [72, 105] :=
  (text_normalizer_spec [72, 105]).2.1 (by decide)

end Normalizer

section Orchestrator

/-- Result of the statsmodels calls at app.py:97-99 for one
(trial, parameter) table: the fitted model's overall F-test p-value
(model.f_pvalue, app.py:116) and the Tukey pairwise rows
(group1, group2, reject) read off the results table at app.py:105-108.
The fitting itself is external library code, so the orchestrator model is
parameterized by a fit function; a fit that raises (caught by the except
at app.py:100-101) is modelled as a fit returning none. -/
structure FitResult where
  f_pvalue : ℚ
  pairwise : List (String × String × Bool)
deriving DecidableEq

/-- One row of the consolidated output table built at app.py:103-117:
Treatment, Mean, Group (none when the treatment is missing from the group
map, pandas NaN), Parameter, Trial, p_value. -/
structure OutRow where
  treatment : String
  mean : ℚ
  group : Option Nat
  parameter : String
  trial : String
  p_value : ℚ
deriving DecidableEq

/-- sub_df = df[[Treatment, param]].dropna() at app.py:90: keep the rows
whose parameter value is present. -/
def dropna (rows : List (String × Option ℚ)) : List (String × ℚ) :=
  rows.filterMap (fun r => r.2.map (fun v => (r.1, v)))

/-- sub_df[Treatment].nunique() at app.py:91. -/
def nuniqueTreatments (sub : List (String × ℚ)) : Nat :=
  ((sub.map Prod.fst).dedup).length

/-- means = sub_df.groupby(Treatment)[param].mean() at app.py:103-104: one
row per distinct treatment (pandas sorts the group keys) carrying the
arithmetic mean of that treatment's values. -/
def meansOf (sub : List (String × ℚ)) : List (String × ℚ) :=
  (((sub.map Prod.fst).dedup).insertionSort (· ≤ ·)).map
    (fun t => (t, ((sub.filter (fun r => decide (r.1 = t))).map Prod.snd).sum
      / ((sub.filter (fun r => decide (r.1 = t))).length : ℚ)))

/-- grouping_dict built at app.py:106-111: every pair the Tukey table does
not reject is inserted in both directions. -/
def notRejectEdges (pw : List (String × String × Bool)) : List (String × String) :=
  pw.foldl (fun acc row =>
    if row.2.2 then acc else acc ++ [(row.1, row.2.1), (row.2.1, row.1)]) []

/-- The per-(trial, parameter) pipeline of app.py:90-117, parameterized by
the external ANOVA/Tukey fit: dropna, skip on insufficient data before any
fitting (app.py:91-92), skip when the fit raises (app.py:96-101), then
group means, not-reject adjacency, letter assignment and row tagging
(app.py:103-117).  Returns the rows this combination contributes; the
insufficient-data and fit-failure branches return before meansOf,
notRejectEdges or assignGroups is ever applied. -/
def processParam (fit : List (String × ℚ) → Option FitResult)
    (trial param : String) (rows : List (String × Option ℚ)) : List OutRow :=
  if nuniqueTreatments (dropna rows) < 2 ∨ (dropna rows).length < 3 then []
  else
    match fit (dropna rows) with
    | none => []
    | some fr =>
      (meansOf (dropna rows)).map (fun p =>
        { treatment := p.1, mean := p.2,
          group := assignGroups (notRejectEdges fr.pairwise)
            ((meansOf (dropna rows)).map Prod.fst) p.1,
          parameter := param, trial := trial, p_value := fr.f_pvalue })

/-- The all_results accumulation and concatenation of app.py:79, 117 and
120: every (trial, parameter) combination contributes its rows in order. -/
def consolidate (fit : List (String × ℚ) → Option FitResult)
    (combos : List (String × String × List (String × Option ℚ))) : List OutRow :=
  (combos.map (fun c => processParam fit c.1 c.2.1 c.2.2)).flatten

/-- full_df[full_df[p_value] < 0.05] at app.py:124 (0.05 = 1/20). -/
def filteredView (rows : List OutRow) : List OutRow :=
  rows.filter (fun r => decide (r.p_value < 1 / 20))

theorem consolidate_skip (fit : List (String × ℚ) → Option FitResult)
    (c : String × String × List (String × Option ℚ))
    (hc : processParam fit c.1 c.2.1 c.2.2 = [])
    (pre post : List (String × String × List (String × Option ℚ))) :
    consolidate fit (pre ++ c :: post) = consolidate fit pre ++ consolidate fit post := by
  rw [consolidate, consolidate, consolidate, List.map_append, List.map_cons,
    List.flatten_append, List.flatten_cons, hc]
  simp

/-- Claim C4: a (trial, parameter) combination whose dropna'd table has
fewer than 2 distinct treatments or fewer than 3 rows is skipped by the
guard at app.py:91-92: the pipeline returns no rows before any fit or
letter assignment is attempted (the guard is the first branch of
processParam), and a consolidated run over the remaining combinations is
unchanged by the skipped one. -/
theorem insufficient_data_skip (fit : List (String × ℚ) → Option FitResult)
    (trial param : String) (rows : List (String × Option ℚ))
    (h : nuniqueTreatments (dropna rows) < 2 ∨ (dropna rows).length < 3) :
    processParam fit trial param rows = [] ∧
    ∀ pre post, consolidate fit (pre ++ (trial, param, rows) :: post)
      = consolidate fit pre ++ consolidate fit post := by
  have hempty : processParam fit trial param rows = [] := by
    rw [processParam, if_pos h]
  exact ⟨hempty, fun pre post => consolidate_skip fit (trial, param, rows) hempty pre post⟩

/-- Claim C4 witness: a table with a single distinct treatment is
skipped. -/
theorem insufficient_data_skip_witness :
    processParam (fun _ => none) "t" "p" [("A", some 1)] = [] :=
  (insufficient_data_skip (fun _ => none) "t" "p" [("A", some 1)]
    (Or.inl (by decide))).1

/-- Claim C5: all rows a processed (trial, parameter) combination
contributes carry one identical p_value, and when the fit succeeds that
value is the fitted model's overall F-test p-value (app.py:116). -/
theorem p_value_uniform (fit : List (String × ℚ) → Option FitResult)
    (trial param : String) (rows : List (String × Option ℚ)) :
    (∀ r ∈ processParam fit trial param rows, ∀ r2 ∈ processParam fit trial param rows,
      r.p_value = r2.p_value) ∧
    (∀ fr, fit (dropna rows) = some fr →
      ∀ r ∈ processParam fit trial param rows, r.p_value = fr.f_pvalue) := by
  constructor
  · intro r hr r2 hr2
    rw [processParam] at hr hr2
    split_ifs at hr hr2
    · exact absurd hr (List.not_mem_nil r)
    · rcases hfit : fit (dropna rows) with _ | fr
      · rw [hfit] at hr
        exact absurd hr (List.not_mem_nil r)
      · rw [hfit] at hr hr2
        obtain ⟨p, _, rfl⟩ := List.mem_map.1 hr
        obtain ⟨p2, _, rfl⟩ := List.mem_map.1 hr2
        rfl
  · intro fr hfr r hr
    rw [processParam] at hr
    split_ifs at hr
    · exact absurd hr (List.not_mem_nil r)
    · rw [hfr] at hr
      obtain ⟨p, _, rfl⟩ := List.mem_map.1 hr
      rfl

/-- Claim C5 witness: a concrete fitted combination produces a row, and
that row carries the fit's F-test p-value. -/
theorem p_value_uniform_witness :
    ∃ r ∈ processParam (fun _ => some ⟨1 / 10, []⟩) "t" "p"
      [("A", some 1), ("A", some 2), ("B", some 3)], r.p_value = 1 / 10 := by
  have h := (p_value_uniform (fun _ => some ⟨1 / 10, []⟩) "t" "p"
    [("A", some 1), ("A", some 2), ("B", some 3)]).2 ⟨1 / 10, []⟩ rfl
  have hkeys : (((dropna [("A", some 1), ("A", some 2), ("B", some 3)]).map
      Prod.fst).dedup).insertionSort (· ≤ ·) = ["A", "B"] := by
    simp [dropna, List.insertionSort, List.orderedInsert]
    decide
  have hmem : ∃ r, r ∈ processParam (fun _ => some ⟨1 / 10, []⟩) "t" "p"
      [("A", some 1), ("A", some 2), ("B", some 3)] := by
    rw [processParam, if_neg (by decide)]
    dsimp only
    rw [meansOf, hkeys]
    refine ⟨_, List.mem_map.2 ⟨_, List.mem_map.2 ⟨"A", List.mem_cons_self _ _, rfl⟩, rfl⟩⟩
  obtain ⟨r, hr⟩ := hmem
  exact ⟨r, hr, h r hr⟩

/-- Claim C6: a combination on which the ANOVA or Tukey call raises (the
try at app.py:96-101) is skipped by itself: it contributes no rows, the
batch over the remaining combinations is unchanged, and no error value
leaves the per-combination pipeline (processParam is total and returns a
plain, possibly empty, row list). -/
theorem fit_failure_skip (fit : List (String × ℚ) → Option FitResult)
    (trial param : String) (rows : List (String × Option ℚ))
    (h : fit (dropna rows) = none) :
    processParam fit trial param rows = [] ∧
    ∀ pre post, consolidate fit (pre ++ (trial, param, rows) :: post)
      = consolidate fit pre ++ consolidate fit post := by
  have hempty : processParam fit trial param rows = [] := by
    rw [processParam]
    split_ifs
    · rfl
    · rw [h]
  exact ⟨hempty, fun pre post => consolidate_skip fit (trial, param, rows) hempty pre post⟩

/-- Claim C6 witness: an always-raising fit yields no rows for a table
that passes the data-sufficiency guard. -/
theorem fit_failure_skip_witness :
    processParam (fun _ => none) "t" "p" [("A", some 1), ("A", some 2), ("B", some 3)] = [] :=
  (fit_failure_skip (fun _ => none) "t" "p"
    [("A", some 1), ("A", some 2), ("B", some 3)] rfl).1

/-- Claim C7: the filtered view keeps exactly the rows with p_value
strictly below 0.05; over a table holding rows with p = 0.01 and p = 0.20
only the p = 0.01 rows remain. -/
theorem p_filter_correct (rows : List OutRow) :
    (∀ r, r ∈ filteredView rows ↔ r ∈ rows ∧ r.p_value < 1 / 20) ∧
    filteredView
      [⟨"T1", 1, some 0, "P", "S", 1 / 100⟩, ⟨"T2", 2, some 0, "P", "S", 1 / 5⟩,
        ⟨"T3", 3, some 1, "P", "S", 1 / 100⟩]
      = [⟨"T1", 1, some 0, "P", "S", 1 / 100⟩, ⟨"T3", 3, some 1, "P", "S", 1 / 100⟩] := by
  constructor
  · intro r
    rw [filteredView, List.mem_filter]
    simp
  · rw [filteredView]
    norm_num [List.filter]

end Orchestrator

/-- Claim C10 witness: the line T1 10.5 A produces a record, so its split
has at least three parts and a digits.digits second part. -/
theorem rtf_row_shape_witness :
    3 ≤ (wordsOf [84, 49, 32, 49, 48, 46, 53, 32, 65]).length ∧
    (∃ d1 d2, d1 ≠ [] ∧ d2 ≠ [] ∧ (∀ c ∈ d1, isDigitC c = true) ∧
      (∀ c ∈ d2, isDigitC c = true) ∧
      (wordsOf [84, 49, 32, 49, 48, 46, 53, 32, 65]).getD 1 [] = d1 ++ 46 :: d2) := by
  have hsome : (lineRecord [84, 49, 32, 49, 48, 46, 53, 32, 65]).isSome = true := by
    simp [lineRecord, matchesRTF, wordsOf, pyFloatParse, parseMant, parseExp, scanUD,
      scanUDGo_cons, scanUDGo_nil, stripSign, isSpecialFloat, toLowerC,
      isSpaceC, isWordC, isDigitC, isUpperC, isLowerC, parseExpAfterE,
      List.takeWhile, List.dropWhile]
  have h := rtf_row_shape.1 [84, 49, 32, 49, 48, 46, 53, 32, 65] hsome
  exact ⟨h.1, h.2.2.2.1⟩
